import Mathlib

/-!
Verification of the Prompt Synchronization Engine, the AI-gateway result
shaping, and the chat transcript logic of the Creative Prompt Engineer
front end.  Strings are modelled as lists of characters; the stateful
React component is modelled as an explicit state machine whose events are
user edits, timer expiry and gateway completions.
-/

namespace CPE

/-- Strings are modelled as lists of characters. -/
abbrev Str := List Char

/-- Convert a Lean string literal to the character-list model. -/
def str (s : String) : Str := s.data

def commaC : Char := ','

def spaceC : Char := ' '

/-- The dollar character, special in JavaScript replacement strings. -/
def dollarC : Char := Char.ofNat 36

/-- The ampersand character. -/
def ampC : Char := Char.ofNat 38

/-- The backquote character. -/
def btickC : Char := Char.ofNat 96

/-- The single-quote character. -/
def squoteC : Char := Char.ofNat 39

/-- The set of characters removed by JavaScript `String.prototype.trim`:
WhiteSpace and LineTerminator code points of the ECMAScript standard. -/
def isWS (c : Char) : Bool :=
  let n := c.toNat
  n == 9 || n == 10 || n == 11 || n == 12 || n == 13 || n == 32 ||
  n == 160 || n == 5760 || (Nat.ble 8192 n && Nat.ble n 8202) ||
  n == 8232 || n == 8233 || n == 8239 || n == 8287 || n == 12288 || n == 65279

/-- Drop leading whitespace. -/
def trimL (s : Str) : Str := s.dropWhile isWS

/-- Drop trailing whitespace. -/
def trimR (s : Str) : Str := (s.reverse.dropWhile isWS).reverse

/-- Model of JavaScript `s.trim()`. -/
def trim (s : Str) : Str := trimR (trimL s)

/-- Model of JavaScript `s.split(',')`.  Always returns at least one
segment; a comma separates segments. -/
def splitOnComma : Str → List Str
  | [] => [[]]
  | c :: rest =>
    let r := splitOnComma rest
    if c = commaC then [] :: r
    else (c :: r.headI) :: r.tail

/-- Model of JavaScript `parts.join(', ')`. -/
def joinCS : List Str → Str
  | [] => []
  | [p] => p
  | p :: q :: ps => p ++ commaC :: spaceC :: joinCS (q :: ps)

/-- The segments produced by the clean-up in `handlePromptPartChange`:
split on commas, trim each segment, keep the non-empty ones. -/
def segs (s : Str) : List Str :=
  ((splitOnComma s).map trim).filter (fun p => !p.isEmpty)

/-- The comma normalization of `handlePromptPartChange`
(`split(',').map(trim).filter(p => p).join(', ')`). -/
def normalize (s : Str) : Str := joinCS (segs s)

/-- ECMAScript GetSubstitution applied to a replacement string when the
search value is a plain string: `$$`, `$&`, a dollar followed by a
backquote, and a dollar followed by a single quote are interpreted; any
other character is copied literally. -/
def substDollar (matched before after : Str) : Str → Str
  | [] => []
  | c :: rest =>
    if c = dollarC then
      match rest with
      | [] => [c]
      | d :: rest2 =>
        if d = dollarC then dollarC :: substDollar matched before after rest2
        else if d = ampC then matched ++ substDollar matched before after rest2
        else if d = btickC then before ++ substDollar matched before after rest2
        else if d = squoteC then after ++ substDollar matched before after rest2
        else c :: d :: substDollar matched before after rest2
    else c :: substDollar matched before after rest

/-- Split `s` around the first occurrence of `pat`, returning the text
before and after the match, or `none` when `pat` does not occur. -/
def findSplit (pat : Str) : Str → Option (Str × Str)
  | [] => if pat.isPrefixOf ([] : Str) then some ([], []) else none
  | c :: rest =>
    if pat.isPrefixOf (c :: rest) then some ([], (c :: rest).drop pat.length)
    else
      match findSplit pat rest with
      | some (b, a) => some (c :: b, a)
      | none => none

/-- Model of JavaScript `s.replace(pat, repl)` for string arguments:
the first occurrence of `pat` is replaced, and `repl` undergoes
GetSubstitution processing of its dollar escapes. -/
def jsReplace (s pat repl : Str) : Str :=
  match findSplit pat s with
  | none => s
  | some (b, a) => b ++ substDollar pat b a repl ++ a

/-- Replacement exactly as the specification words it: the first
occurrence of `pat` replaced by `repl` as a literal substring. -/
def litReplace (s pat repl : Str) : Str :=
  match findSplit pat s with
  | none => s
  | some (b, a) => b ++ repl ++ a

/-- The `PromptParts` record of `types.ts`: seven named fields plus the
full prompt text. -/
structure PromptParts where
  scene : Str
  background : Str
  imageType : Str
  style : Str
  texture : Str
  lighting : Str
  details : Str
  fullPrompt : Str
deriving DecidableEq, Repr

/-- The seven named fields of a `PromptParts` (everything except
`fullPrompt`). -/
inductive Field where
  | scene | background | imageType | style | texture | lighting | details
deriving DecidableEq, Repr

def PromptParts.get (p : PromptParts) : Field → Str
  | .scene => p.scene
  | .background => p.background
  | .imageType => p.imageType
  | .style => p.style
  | .texture => p.texture
  | .lighting => p.lighting
  | .details => p.details

def PromptParts.setField (p : PromptParts) : Field → Str → PromptParts
  | .scene, v => { p with scene := v }
  | .background, v => { p with background := v }
  | .imageType, v => { p with imageType := v }
  | .style, v => { p with style := v }
  | .texture, v => { p with texture := v }
  | .lighting, v => { p with lighting := v }
  | .details, v => { p with details := v }

/-- The named-field branch of `handlePromptPartChange` in
`PromptGenerator.tsx`: update the edited field, surgically update the
full prompt (replace the old value when it is non-empty and
non-whitespace, else append a non-empty non-whitespace new value), then
normalize the comma structure. -/
def handlePartChange (f : Field) (v : Str) (p : PromptParts) : PromptParts :=
  let oldValue := p.get f
  let fp := p.fullPrompt
  let fp1 :=
    if oldValue ≠ [] ∧ trim oldValue ≠ [] then jsReplace fp oldValue v
    else if v ≠ [] ∧ trim v ≠ [] then
      if trim fp = [] then v
      else fp ++ commaC :: spaceC :: v
    else fp
  let p1 := p.setField f v
  { p1 with fullPrompt := normalize fp1 }

/-- Result shaping of `breakdownPromptIntoParts` in `geminiService.ts`:
whatever the gateway parsed, `fullPrompt` is forced back to the exact
submitted prompt. -/
def breakdownResult (prompt : Str) (resp : PromptParts) : PromptParts :=
  { resp with fullPrompt := prompt }

/-- State of the prompt synchronization engine of `PromptGenerator.tsx`,
after the initial analysis: the current `PromptParts`, the
`userIsEditingFullPrompt` ref (`flag`), the `initialAnalysisDone` ref,
the `debouncedFullPrompt` state, the pending debounce timer (absolute
expiry time and the full-prompt value captured by the closure), the
re-analysis prompts currently in flight, the gateway re-analysis calls
issued so far, and whether an error message is displayed. -/
structure EngineState where
  parts : PromptParts
  flag : Bool
  initialDone : Bool
  debounced : Str
  timer : Option (Nat × Str)
  inflight : List Str
  calls : List Str
  errorFlag : Bool
deriving DecidableEq, Repr

/-- External events driving the engine, each carrying the millisecond
time at which it occurs: a keystroke in the full-prompt text area, a
keystroke in a named-field input, and success or failure of an
in-flight re-analysis call. -/
inductive Event where
  | editFull (t : Nat) (v : Str)
  | editPart (t : Nat) (f : Field) (v : Str)
  | returnOk (t : Nat) (v : Str) (resp : PromptParts)
  | returnErr (t : Nat) (v : Str)
deriving DecidableEq, Repr

def Event.isEditFull : Event → Bool
  | .editFull _ _ => true
  | _ => false

/-- The first `useEffect` of `PromptGenerator.tsx`: when the dependency
`promptParts.fullPrompt` changes, the previous debounce timer is
cleared; if the new value is truthy a fresh 500 ms timer capturing the
new value is started. -/
def effectA (now : Nat) (oldFull newFull : Str) (st : EngineState) : EngineState :=
  if oldFull = newFull then st
  else if newFull ≠ [] then { st with timer := some (now + 500, newFull) }
  else { st with timer := none }

/-- `reAnalyzePrompt` of `PromptGenerator.tsx` at the moment it is
invoked: if the prompt trims to nothing it returns without contacting
the gateway; otherwise the error is cleared and a gateway re-analysis
call is issued (recorded in `calls` and `inflight`). -/
def reAnalyzeCall (v : Str) (st : EngineState) : EngineState :=
  if trim v = [] then st
  else { st with calls := st.calls ++ [v], inflight := st.inflight ++ [v],
                 errorFlag := false }

/-- The second `useEffect` of `PromptGenerator.tsx`: when
`debouncedFullPrompt` changes to a truthy value while the user-edit
flag is set and the initial analysis has completed, the flag is
consumed and `reAnalyzePrompt` is invoked with the debounced value. -/
def effectB (oldDeb newDeb : Str) (st : EngineState) : EngineState :=
  if oldDeb = newDeb then st
  else if newDeb ≠ [] ∧ st.flag = true ∧ st.initialDone = true then
    reAnalyzeCall newDeb { st with flag := false }
  else st

/-- Expiry of the pending debounce timer: `setDebouncedFullPrompt` runs
with the captured value, then the debounced-value effect reacts. -/
def fireTimer (st : EngineState) : EngineState :=
  match st.timer with
  | none => st
  | some (_, v) =>
    effectB st.debounced v { st with timer := none, debounced := v }

/-- Let the pending timer expire first when its time has come before
`t`: the event loop runs due timer callbacks before later events. -/
def advance (t : Nat) (st : EngineState) : EngineState :=
  match st.timer with
  | some (ft, _) => if ft ≤ t then fireTimer st else st
  | none => st

/-- The `fullPrompt` branch of `handlePromptPartChange`: commit the raw
value, mark the edit as user-made, and let the debounce effect react to
the changed full prompt. -/
def applyEditFull (t : Nat) (v : Str) (st : EngineState) : EngineState :=
  effectA t st.parts.fullPrompt v
    { st with parts := { st.parts with fullPrompt := v }, flag := true }

/-- A named-field edit: `handlePromptPartChange` rewrites the parts and
the full prompt locally; the debounce effect reacts to the possibly
changed full prompt.  The user-edit flag is not touched. -/
def applyEditPart (t : Nat) (f : Field) (v : Str) (st : EngineState) : EngineState :=
  let p := handlePartChange f v st.parts
  effectA t st.parts.fullPrompt p.fullPrompt { st with parts := p }

/-- Successful completion of an in-flight re-analysis of `v`:
`breakdownPromptIntoParts` forces `fullPrompt := v`, `setPromptParts`
replaces the whole record, and the debounce effect reacts to any
resulting change of the full prompt. -/
def applyReturnOk (t : Nat) (v : Str) (resp : PromptParts) (st : EngineState) :
    EngineState :=
  effectA t st.parts.fullPrompt v
    { st with parts := breakdownResult v resp, inflight := st.inflight.erase v }

/-- Failed completion of an in-flight re-analysis of `v`: the catch
block sets the error message and nothing else; the prompt state is
untouched. -/
def applyReturnErr (v : Str) (st : EngineState) : EngineState :=
  { st with inflight := st.inflight.erase v, errorFlag := true }

def step (st : EngineState) : Event → EngineState
  | .editFull t v => applyEditFull t v (advance t st)
  | .editPart t f v => applyEditPart t f v (advance t st)
  | .returnOk t v resp => applyReturnOk t v resp (advance t st)
  | .returnErr t v => applyReturnErr v (advance t st)

def runEvents (evs : List Event) (st : EngineState) : EngineState :=
  evs.foldl step st

/-- Let a still-pending timer expire after the last event. -/
def flushTimer (st : EngineState) : EngineState := fireTimer st

/-- Chat message roles of `types.ts`. -/
inductive Role where
  | user | model
deriving DecidableEq, Repr

structure ChatMsg where
  role : Role
  text : Str
deriving DecidableEq, Repr

/-- The fixed greeting seeded into the transcript on mount of
`ChatBot`. -/
def greeting : ChatMsg :=
  ⟨.model, str "Hello! How can I help you with your creative process today?"⟩

/-- The fixed fallback text appended as a model message when a chat
turn fails. -/
def fallback : Str := str "Sorry, I encountered an error. Please try again."

structure ChatState where
  messages : List ChatMsg
  pending : Bool
deriving DecidableEq, Repr

/-- Transcript state after the mount effect of `ChatBot`. -/
def chatInit : ChatState := ⟨[greeting], false⟩

/-- One complete chat turn as performed by `handleSend`, submission
through settled response: blank input or a turn already pending is
refused; otherwise the user message is appended and then the model
response — the gateway text on success (`some r`), the fixed fallback
on failure (`none`) — and the pending flag ends cleared. -/
def handleSend (input : Str) (resp : Option Str) (st : ChatState) : ChatState :=
  if trim input = [] ∨ st.pending = true then st
  else ⟨st.messages ++ [⟨.user, input⟩, ⟨.model, resp.getD fallback⟩], false⟩

/-- A sequence of chat submissions issued one at a time, each awaited
before the next. -/
def runChat (subs : List (Str × Option Str)) (st : ChatState) : ChatState :=
  subs.foldl (fun s x => handleSend x.1 x.2 s) st

/-! ### Lemmas about trimming -/

theorem dropWhile_dropWhile (p : Char → Bool) (l : Str) :
    (l.dropWhile p).dropWhile p = l.dropWhile p := by
  induction l with
  | nil => rfl
  | cons c t ih =>
    by_cases h : p c
    · simp [List.dropWhile_cons_of_pos h, ih]
    · simp [List.dropWhile_cons_of_neg h, h]

theorem trimL_trimL (s : Str) : trimL (trimL s) = trimL s :=
  dropWhile_dropWhile isWS s

theorem trimR_trimR (s : Str) : trimR (trimR s) = trimR s := by
  simp [trimR, dropWhile_dropWhile]

theorem dropWhile_length_le (p : Char → Bool) (l : Str) :
    (l.dropWhile p).length ≤ l.length := by
  induction l with
  | nil => simp
  | cons c t ih =>
    rw [List.dropWhile_cons]
    split
    · exact Nat.le_trans ih (by simp)
    · simp

theorem dropWhile_head_false {p : Char → Bool} {l : Str} {c : Char} {t : Str}
    (h : l.dropWhile p = c :: t) : p c = false := by
  induction l with
  | nil => simp at h
  | cons a r ih =>
    rw [List.dropWhile_cons] at h
    by_cases hp : p a
    · rw [if_pos hp] at h
      exact ih h
    · rw [if_neg hp] at h
      have hac : a = c := (List.cons.injEq a r c t).mp h |>.1
      subst hac
      simpa using hp

theorem dropWhile_append_last {c : Char} (hc : isWS c = false) (xs : Str) :
    ∃ u, (xs ++ [c]).dropWhile isWS = u ++ [c] := by
  induction xs with
  | nil => exact ⟨[], by simp [List.dropWhile_cons, hc]⟩
  | cons x t ih =>
    by_cases h : isWS x
    · simpa [List.dropWhile_cons, h] using ih
    · exact ⟨x :: t, by simp [List.dropWhile_cons, h]⟩

theorem trimL_trimR_of_trimL (u : Str) (h : trimL u = u) :
    trimL (trimR u) = trimR u := by
  cases u with
  | nil => rfl
  | cons c t =>
    have hc : isWS c = false := by
      by_cases hcc : isWS c = true
      · have hlen : (trimL (c :: t)).length ≤ t.length := by
          simpa [trimL, List.dropWhile_cons, hcc] using
            dropWhile_length_le isWS t
        rw [h] at hlen
        simp at hlen
      · cases hh : isWS c
        · rfl
        · exact absurd hh hcc
    obtain ⟨u', hu⟩ := dropWhile_append_last hc t.reverse
    have hr : trimR (c :: t) = c :: u'.reverse := by
      simp [trimR, hu]
    rw [hr]
    simp [trimL, List.dropWhile_cons, hc]

theorem trim_trim (s : Str) : trim (trim s) = trim s := by
  have h1 : trimL (trimL s) = trimL s := trimL_trimL s
  have h2 : trimL (trimR (trimL s)) = trimR (trimL s) :=
    trimL_trimR_of_trimL (trimL s) h1
  simp only [trim, h2, trimR_trimR]

theorem mem_of_mem_trimL {c : Char} {s : Str} (h : c ∈ trimL s) : c ∈ s :=
  (s.dropWhile_sublist isWS).subset h

theorem mem_of_mem_trimR {c : Char} {s : Str} (h : c ∈ trimR s) : c ∈ s := by
  simp only [trimR, List.mem_reverse] at h
  have := (s.reverse.dropWhile_sublist isWS).subset h
  simpa using this

theorem mem_of_mem_trim {c : Char} {s : Str} (h : c ∈ trim s) : c ∈ s :=
  mem_of_mem_trimL (mem_of_mem_trimR h)

theorem trim_cons_ws {c : Char} (hc : isWS c = true) (s : Str) :
    trim (c :: s) = trim s := by
  simp [trim, trimL, List.dropWhile_cons_of_pos hc]

theorem dropWhile_eq_nil_of_forall {p : Char → Bool} {l : Str}
    (h : ∀ c ∈ l, p c = true) : l.dropWhile p = [] := by
  induction l with
  | nil => rfl
  | cons c t ih =>
    rw [List.dropWhile_cons_of_pos (h c (by simp))]
    exact ih fun c hc => h c (by simp [hc])

theorem forall_of_dropWhile_eq_nil {p : Char → Bool} {l : Str}
    (h : l.dropWhile p = []) : ∀ c ∈ l, p c = true := by
  induction l with
  | nil => simp
  | cons c t ih =>
    by_cases hp : p c
    · rw [List.dropWhile_cons_of_pos hp] at h
      intro x hx
      rcases List.mem_cons.mp hx with hx | hx
      · subst hx; exact hp
      · exact ih h x hx
    · rw [List.dropWhile_cons_of_neg hp] at h
      exact absurd h (by simp)

theorem trim_eq_nil_of_all_ws {v : Str} (h : ∀ c ∈ v, isWS c = true) :
    trim v = [] := by
  simp [trim, trimL, trimR, dropWhile_eq_nil_of_forall h]

theorem all_ws_of_trim_eq_nil {v : Str} (h : trim v = []) :
    ∀ c ∈ v, isWS c = true := by
  have hR : (trimL v).reverse.dropWhile isWS = [] := by
    have : ((trimL v).reverse.dropWhile isWS).reverse = [] := h
    simpa using this
  have hall : ∀ c ∈ (trimL v).reverse, isWS c = true :=
    forall_of_dropWhile_eq_nil hR
  have htl : trimL v = [] := by
    cases hu : trimL v with
    | nil => rfl
    | cons c t =>
      have hhd : isWS c = false := dropWhile_head_false (p := isWS) (l := v) hu
      have hmem : isWS c = true := hall c (by simp [hu])
      rw [hhd] at hmem
      exact absurd hmem (by simp)
  exact forall_of_dropWhile_eq_nil htl

/-! ### Lemmas about splitting and joining -/

theorem splitOnComma_nil : splitOnComma [] = [[]] := rfl

theorem splitOnComma_cons_comma (rest : Str) :
    splitOnComma (commaC :: rest) = [] :: splitOnComma rest := by
  simp [splitOnComma]

theorem splitOnComma_cons_other {c : Char} (hc : c ≠ commaC) (rest : Str) :
    splitOnComma (c :: rest) =
      (c :: (splitOnComma rest).headI) :: (splitOnComma rest).tail := by
  simp [splitOnComma, hc]

theorem splitOnComma_ne_nil (s : Str) : splitOnComma s ≠ [] := by
  cases s with
  | nil => simp [splitOnComma]
  | cons c t =>
    by_cases hc : c = commaC
    · subst hc; simp [splitOnComma_cons_comma]
    · simp [splitOnComma_cons_other hc]

theorem splitOnComma_append (a b : Str) :
    splitOnComma (a ++ commaC :: b) = splitOnComma a ++ splitOnComma b := by
  induction a with
  | nil => simp [splitOnComma]
  | cons c t ih =>
    by_cases hc : c = commaC
    · subst hc
      simp [splitOnComma, ih]
    · obtain ⟨h, tl, hht⟩ := List.exists_cons_of_ne_nil (splitOnComma_ne_nil t)
      simp [splitOnComma, hc, ih, hht]

theorem splitOnComma_of_not_mem {s : Str} (h : commaC ∉ s) :
    splitOnComma s = [s] := by
  induction s with
  | nil => rfl
  | cons c t ih =>
    have hc : c ≠ commaC := fun hh => h (by simp [hh])
    have ht : commaC ∉ t := fun hh => h (by simp [hh])
    simp [splitOnComma, hc, ih ht]

theorem not_mem_of_mem_splitOnComma {s : Str} {t : Str}
    (h : t ∈ splitOnComma s) : commaC ∉ t := by
  induction s generalizing t with
  | nil =>
    simp only [splitOnComma, List.mem_singleton] at h
    subst h; simp
  | cons c r ih =>
    by_cases hc : c = commaC
    · subst hc
      rw [splitOnComma_cons_comma, List.mem_cons] at h
      rcases h with heq | hmem
      · subst heq; simp
      · exact ih hmem
    · obtain ⟨hd, tl, hht⟩ := List.exists_cons_of_ne_nil (splitOnComma_ne_nil r)
      rw [splitOnComma_cons_other hc, hht, List.headI, List.tail,
        List.mem_cons] at h
      rcases h with heq | hmem
      · subst heq
        intro hcm
        rcases List.mem_cons.mp hcm with hh | hh
        · exact hc hh.symm
        · exact ih (t := hd) (by simp [hht]) hh
      · exact ih (t := t) (by simp [hht, hmem])

theorem ws_ne_comma {c : Char} (hc : isWS c = true) : c ≠ commaC := by
  intro h
  subst h
  exact absurd hc (by decide)

theorem segs_cons_ws {c : Char} (hc : isWS c = true) (s : Str) :
    segs (c :: s) = segs s := by
  obtain ⟨h, tl, hht⟩ := List.exists_cons_of_ne_nil (splitOnComma_ne_nil s)
  simp only [segs, splitOnComma_cons_other (ws_ne_comma hc), hht, List.headI,
    List.tail, List.map_cons, List.filter_cons, trim_cons_ws hc]

theorem joinCS_cons_cons (p q : Str) (ps : List Str) :
    joinCS (p :: q :: ps) = p ++ commaC :: spaceC :: joinCS (q :: ps) := rfl

theorem segs_append (a b : Str) :
    segs (a ++ commaC :: b) = segs a ++ segs b := by
  simp only [segs, splitOnComma_append, List.map_append, List.filter_append]

theorem segs_of_not_mem_comma {s : Str} (h : commaC ∉ s) :
    segs s = if (trim s).isEmpty then [] else [trim s] := by
  simp only [segs, splitOnComma_of_not_mem h, List.map_cons, List.map_nil,
    List.filter]
  cases he : (trim s).isEmpty <;> simp

/-- The segments produced by the normalization are exactly the list of
well-formed segments joined: the clean-up pass is a retraction. -/
theorem segs_joinCS (ps : List Str)
    (h : ∀ p ∈ ps, p ≠ [] ∧ trim p = p ∧ commaC ∉ p) :
    segs (joinCS ps) = ps := by
  induction ps with
  | nil =>
    simp [joinCS, segs, splitOnComma_nil, trim, trimL, trimR]
  | cons p ps ih =>
    obtain ⟨hpne, hptrim, hpcomma⟩ := h p (by simp)
    cases ps with
    | nil =>
      simp only [joinCS, segs_of_not_mem_comma hpcomma, hptrim]
      simp [List.isEmpty_iff, hpne]
    | cons q ps' =>
      rw [joinCS_cons_cons, segs_append]
      have h1 : segs p = [p] := by
        simp only [segs_of_not_mem_comma hpcomma, hptrim]
        simp [List.isEmpty_iff, hpne]
      have h2 : segs (spaceC :: joinCS (q :: ps')) = q :: ps' := by
        rw [segs_cons_ws (by decide)]
        exact ih fun x hx => h x (by simp [hx])
      rw [h1, h2]
      rfl

theorem normalize_idem (s : Str) : normalize (normalize s) = normalize s := by
  have h : ∀ p ∈ segs s, p ≠ [] ∧ trim p = p ∧ commaC ∉ p := by
    intro p hp
    simp only [segs, List.mem_filter, List.mem_map] at hp
    obtain ⟨⟨x, hx, hpx⟩, hne⟩ := hp
    refine ⟨?_, ?_, ?_⟩
    · subst hpx
      intro hnil
      rw [hnil] at hne
      simp at hne
    · subst hpx
      exact trim_trim x
    · subst hpx
      intro hmem
      exact not_mem_of_mem_splitOnComma hx (mem_of_mem_trim hmem)
  show joinCS (segs (joinCS (segs s))) = joinCS (segs s)
  rw [segs_joinCS (segs s) h]

/-! ### Lemmas about whitespace-only strings -/

theorem normalize_of_trim_eq_nil {s : Str} (h : trim s = []) :
    normalize s = [] := by
  have hws := all_ws_of_trim_eq_nil h
  have hcm : commaC ∉ s := by
    intro hmem
    have := hws commaC hmem
    exact absurd this (by decide)
  simp only [normalize, segs_of_not_mem_comma hcm, h]
  simp [joinCS]

theorem normalize_append_ws {v : Str} (hv : trim v = []) (fp : Str) :
    normalize (fp ++ commaC :: spaceC :: v) = normalize fp := by
  have hsv : segs (spaceC :: v) = [] := by
    rw [segs_cons_ws (by decide)]
    have hws := all_ws_of_trim_eq_nil hv
    have hcm : commaC ∉ v := by
      intro hmem
      have := hws commaC hmem
      exact absurd this (by decide)
    simp [segs_of_not_mem_comma hcm, hv]
  simp [normalize, segs_append, hsv]

/-! ### Lemmas about the replacement step -/

theorem substDollar_of_not_mem {r : Str} (h : dollarC ∉ r) (m b a : Str) :
    substDollar m b a r = r := by
  induction r with
  | nil => rfl
  | cons c t ih =>
    have hc : c ≠ dollarC := fun hh => h (by simp [hh])
    have ht : dollarC ∉ t := fun hh => h (by simp [hh])
    cases t with
    | nil => simp [substDollar, hc]
    | cons d t2 => simp [substDollar, hc, ih ht]

theorem jsReplace_of_not_mem_dollar {repl : Str} (h : dollarC ∉ repl)
    (s pat : Str) : jsReplace s pat repl = litReplace s pat repl := by
  simp only [jsReplace, litReplace]
  cases hfs : findSplit pat s with
  | none => rfl
  | some ba =>
    obtain ⟨b, a⟩ := ba
    show b ++ substDollar pat b a repl ++ a = b ++ repl ++ a
    rw [substDollar_of_not_mem h]

theorem jsReplace_of_findSplit_none {s pat : Str} (h : findSplit pat s = none)
    (repl : Str) : jsReplace s pat repl = s := by
  simp [jsReplace, h]

/-! ### Concrete prompt records used in witnesses and counterexamples -/

/-- The specification example: `scene = "a cat"`, `fullPrompt = "a cat,
sitting"`. -/
def pSpec : PromptParts :=
  { scene := str "a cat", background := [], imageType := [], style := [],
    texture := [], lighting := [], details := [],
    fullPrompt := str "a cat, sitting" }

/-- A prompt whose `scene` is the non-empty whitespace-only string. -/
def pWhite : PromptParts :=
  { scene := str " ", background := [], imageType := [], style := [],
    texture := [], lighting := [], details := [],
    fullPrompt := str "a cat" }

/-- A prompt whose `scene` occurs in the full text, used to exhibit the
dollar-escape behaviour of the JavaScript replacement. -/
def pCat : PromptParts :=
  { scene := str "cat", background := [], imageType := [], style := [],
    texture := [], lighting := [], details := [],
    fullPrompt := str "a cat" }

/-- The specification example for the append path: `texture = ""`,
`fullPrompt = "a cat"`. -/
def pGlossy : PromptParts :=
  { scene := [], background := [], imageType := [], style := [],
    texture := [], lighting := [], details := [],
    fullPrompt := str "a cat" }

/-! ### Claim C1 -/

/-- C1 (counterexample): the claim as stated fails on the code in two
ways.  First, for a non-empty but whitespace-only `oldValue` (here
`scene = " "`) the code takes the append branch, not the replacement
branch, so the result `"a cat, dog"` differs from the claimed
normalized first-occurrence replacement `"adogcat"`.  Second, even for
a non-whitespace `oldValue`, the new value is not inserted as a literal
substring: JavaScript interprets dollar escapes in the replacement, so
editing `scene = "cat"` to `"$&!"` yields `"a cat!"`, not the literal
`"a $&!"`. -/
theorem claim1_counterexample :
    (pWhite.get .scene ≠ [] ∧
      (handlePartChange .scene (str "dog") pWhite).fullPrompt ≠
        normalize (litReplace pWhite.fullPrompt (pWhite.get .scene) (str "dog")))
    ∧ (pCat.get .scene ≠ [] ∧
      (handlePartChange .scene (str "$&!") pCat).fullPrompt ≠
        normalize (litReplace pCat.fullPrompt (pCat.get .scene) (str "$&!"))) := by
  decide

/-- C1 (amended): for every named-field edit whose old value is
non-empty AFTER TRIMMING, the new full prompt is the normalization of
the old full prompt with the first occurrence of the old value replaced
according to JavaScript string-replacement semantics (`jsReplace`); if
the old value does not occur verbatim, the full prompt is only
normalized; and whenever the new value contains no dollar character the
replacement inserts it as a literal substring, as the claim words it. -/
theorem claim1_replace (f : Field) (v : Str) (p : PromptParts)
    (h : trim (p.get f) ≠ []) :
    (handlePartChange f v p).fullPrompt =
        normalize (jsReplace p.fullPrompt (p.get f) v)
    ∧ (findSplit (p.get f) p.fullPrompt = none →
        (handlePartChange f v p).fullPrompt = normalize p.fullPrompt)
    ∧ (dollarC ∉ v →
        (handlePartChange f v p).fullPrompt =
          normalize (litReplace p.fullPrompt (p.get f) v)) := by
  have hne : p.get f ≠ [] := by
    intro hh
    apply h
    rw [hh]
    rfl
  have hmain : (handlePartChange f v p).fullPrompt =
      normalize (jsReplace p.fullPrompt (p.get f) v) := by
    simp only [handlePartChange, if_pos (And.intro hne h)]
  refine ⟨hmain, ?_, ?_⟩
  · intro hfs
    rw [hmain, jsReplace_of_findSplit_none hfs]
  · intro hd
    rw [hmain, jsReplace_of_not_mem_dollar hd]

/-- C1 (witness): the specification example — editing `scene` from
`"a cat"` to `"a dog"` with `fullPrompt = "a cat, sitting"` yields
`"a dog, sitting"`. -/
theorem claim1_witness :
    trim (pSpec.get .scene) ≠ [] ∧
    (handlePartChange .scene (str "a dog") pSpec).fullPrompt =
      normalize (jsReplace pSpec.fullPrompt (pSpec.get .scene) (str "a dog")) ∧
    (handlePartChange .scene (str "a dog") pSpec).fullPrompt =
      str "a dog, sitting" :=
  ⟨by decide, (claim1_replace .scene (str "a dog") pSpec (by decide)).1,
    by decide⟩

/-! ### Claim C5 -/

/-- C5: the comma normalization (split on commas, trim, drop empties,
rejoin with a comma and a space) is idempotent on every string. -/
theorem claim5_normalize_idem (s : Str) :
    normalize (normalize s) = normalize s :=
  normalize_idem s

/-! ### Claim C6 -/

/-- C6: for a named-field edit whose old value is the empty string and
whose new value is non-empty, the new full prompt is the normalization
of the new value when the old full prompt was empty or whitespace-only,
and otherwise the normalization of the old full prompt with a comma,
a space and the new value appended. -/
theorem claim6_append (f : Field) (v : Str) (p : PromptParts)
    (hold : p.get f = []) (hv : v ≠ []) :
    (handlePartChange f v p).fullPrompt =
      if trim p.fullPrompt = [] then normalize v
      else normalize (p.fullPrompt ++ commaC :: spaceC :: v) := by
  have hc1 : ¬(p.get f ≠ [] ∧ trim (p.get f) ≠ []) := by
    rw [hold]; simp
  by_cases hv2 : trim v = []
  · have hc2 : ¬(v ≠ [] ∧ trim v ≠ []) := by simp [hv2]
    simp only [handlePartChange, if_neg hc1, if_neg hc2]
    by_cases hfp : trim p.fullPrompt = []
    · rw [if_pos hfp, normalize_of_trim_eq_nil hfp, normalize_of_trim_eq_nil hv2]
    · rw [if_neg hfp, normalize_append_ws hv2]
  · have hc2 : v ≠ [] ∧ trim v ≠ [] := ⟨hv, hv2⟩
    simp only [handlePartChange, if_neg hc1, if_pos hc2]
    by_cases hfp : trim p.fullPrompt = []
    · simp only [if_pos hfp]
    · simp only [if_neg hfp]

/-- C6 (witness): the specification example — with `texture = ""` and
`fullPrompt = "a cat"`, editing `texture` to `"glossy"` yields
`"a cat, glossy"`. -/
theorem claim6_witness :
    pGlossy.get .texture = [] ∧ str "glossy" ≠ ([] : Str) ∧
    (handlePartChange .texture (str "glossy") pGlossy).fullPrompt =
      str "a cat, glossy" := by
  refine ⟨rfl, by decide, ?_⟩
  have h := claim6_append .texture (str "glossy") pGlossy rfl (by decide)
  rw [if_neg (by decide)] at h
  rw [h]
  decide

/-! ### Claim C9 -/

/-- C9: a named-field edit sets exactly the edited field to the
supplied value and leaves the six other named fields unchanged; only
the edited field and the full prompt may differ. -/
theorem claim9_frame (f : Field) (v : Str) (p : PromptParts) :
    (handlePartChange f v p).get f = v ∧
    ∀ g : Field, g ≠ f → (handlePartChange f v p).get g = p.get g := by
  constructor
  · cases f <;>
      simp [handlePartChange, PromptParts.get, PromptParts.setField]
  · intro g hg
    cases f <;> cases g <;>
      first
        | exact absurd rfl hg
        | simp [handlePartChange, PromptParts.get, PromptParts.setField]

/-- C9 (witness): editing `scene` on the specification example sets
`scene` and leaves `background` untouched. -/
theorem claim9_witness :
    (handlePartChange .scene (str "a dog") pSpec).get .scene = str "a dog" ∧
    (handlePartChange .scene (str "a dog") pSpec).get .background =
      pSpec.get .background :=
  ⟨(claim9_frame .scene (str "a dog") pSpec).1,
    (claim9_frame .scene (str "a dog") pSpec).2 .background (by decide)⟩

/-! ### Lemmas about the engine state machine -/

theorem effectA_parts (t : Nat) (o n : Str) (st : EngineState) :
    (effectA t o n st).parts = st.parts := by
  simp only [effectA]
  split_ifs <;> rfl

theorem effectA_flag (t : Nat) (o n : Str) (st : EngineState) :
    (effectA t o n st).flag = st.flag := by
  simp only [effectA]
  split_ifs <;> rfl

theorem effectA_calls (t : Nat) (o n : Str) (st : EngineState) :
    (effectA t o n st).calls = st.calls := by
  simp only [effectA]
  split_ifs <;> rfl

theorem effectA_debounced (t : Nat) (o n : Str) (st : EngineState) :
    (effectA t o n st).debounced = st.debounced := by
  simp only [effectA]
  split_ifs <;> rfl

theorem effectA_initialDone (t : Nat) (o n : Str) (st : EngineState) :
    (effectA t o n st).initialDone = st.initialDone := by
  simp only [effectA]
  split_ifs <;> rfl

theorem effectA_inflight (t : Nat) (o n : Str) (st : EngineState) :
    (effectA t o n st).inflight = st.inflight := by
  simp only [effectA]
  split_ifs <;> rfl

theorem effectA_of_eq (t : Nat) {o n : Str} (h : o = n) (st : EngineState) :
    effectA t o n st = st := by
  simp [effectA, h]

theorem fireTimer_of_flag_false (st : EngineState) (hf : st.flag = false) :
    (fireTimer st).flag = false ∧ (fireTimer st).calls = st.calls := by
  cases ht : st.timer with
  | none => simp [fireTimer, ht, hf]
  | some p =>
    obtain ⟨ft, v⟩ := p
    simp only [fireTimer, ht, effectB]
    split_ifs with h1 h2
    · simp [hf]
    · exact absurd h2.2.1 (by simp [hf])
    · simp [hf]

theorem advance_of_flag_false (t : Nat) (st : EngineState)
    (hf : st.flag = false) :
    (advance t st).flag = false ∧ (advance t st).calls = st.calls := by
  cases ht : st.timer with
  | none => simp [advance, ht, hf]
  | some p =>
    obtain ⟨ft, v⟩ := p
    simp only [advance, ht]
    split_ifs
    · exact fireTimer_of_flag_false st hf
    · exact ⟨hf, rfl⟩

theorem step_no_editFull (e : Event) (st : EngineState)
    (he : e.isEditFull = false) (hf : st.flag = false) :
    (step st e).flag = false ∧ (step st e).calls = st.calls := by
  cases e with
  | editFull t v => simp [Event.isEditFull] at he
  | editPart t f v =>
    obtain ⟨hf1, hc1⟩ := advance_of_flag_false t st hf
    simp only [step, applyEditPart]
    rw [effectA_flag, effectA_calls]
    exact ⟨hf1, hc1⟩
  | returnOk t v resp =>
    obtain ⟨hf1, hc1⟩ := advance_of_flag_false t st hf
    simp only [step, applyReturnOk]
    rw [effectA_flag, effectA_calls]
    exact ⟨hf1, hc1⟩
  | returnErr t v =>
    obtain ⟨hf1, hc1⟩ := advance_of_flag_false t st hf
    simp only [step, applyReturnErr]
    exact ⟨hf1, hc1⟩

theorem runEvents_no_editFull (evs : List Event) (st : EngineState)
    (he : ∀ e ∈ evs, e.isEditFull = false) (hf : st.flag = false) :
    (runEvents evs st).flag = false ∧ (runEvents evs st).calls = st.calls := by
  induction evs generalizing st with
  | nil => exact ⟨hf, rfl⟩
  | cons e evs ih =>
    obtain ⟨hf1, hc1⟩ := step_no_editFull e st (he e (by simp)) hf
    obtain ⟨hf2, hc2⟩ := ih (step st e) (fun x hx => he x (by simp [hx])) hf1
    exact ⟨hf2, by rw [runEvents] at hc2 ⊢; simpa [hc1] using hc2⟩

/-! ### Concrete engine states and traces -/

/-- The prompt produced by the initial image analysis in the concrete
scenarios. -/
def basePrompt : PromptParts :=
  { scene := str "x0", background := [], imageType := [], style := [],
    texture := [], lighting := [], details := [],
    fullPrompt := str "x0" }

/-- A steady engine state reached after the initial analysis: the
debounce timer armed by the initial commit has fired (`debounced`
tracks the full prompt), no call is in flight and no edit pending. -/
def readyState : EngineState :=
  { parts := basePrompt, flag := false, initialDone := true,
    debounced := str "x0", timer := none, inflight := [], calls := [],
    errorFlag := false }

/-- A gateway response whose echo of the full prompt differs from the
submitted text. -/
def respW : PromptParts :=
  { scene := str "alpha", background := str "beta", imageType := [],
    style := [], texture := [], lighting := [], details := [],
    fullPrompt := str "echoed by the model" }

/-- The state at the moment a re-analysis of `"A"` completes with no
intervening user edit: the full prompt still reads `"A"`, the call is
in flight, the dirty flag was consumed when the call was issued. -/
def cWState : EngineState :=
  { parts := { basePrompt with fullPrompt := str "A" }, flag := false,
    initialDone := true, debounced := str "A", timer := none,
    inflight := [str "A"], calls := [str "A"], errorFlag := false }

/-- A state whose pending debounce timer captured a whitespace-only
full-prompt value. -/
def wsTimerState : EngineState :=
  { parts := { basePrompt with fullPrompt := str " " }, flag := true,
    initialDone := true, debounced := str "x0",
    timer := some (500, str " "), inflight := [], calls := [],
    errorFlag := false }

/-- The overlapping-calls trace refuting claim C4: edit to `"A"`, edit
to `"C"` (the `"A"` timer fires first and issues a call), edit to
`"D"` (the `"C"` timer fires first and issues a call), then the late
success of the `"A"` call arrives. -/
def ceTrace : List Event :=
  [Event.editFull 0 (str "A"), Event.editFull 600 (str "C"),
   Event.editFull 1200 (str "D"),
   Event.returnOk 1300 (str "A") respW]

/-! ### Claim C2 -/

/-- C2: a successful re-analysis of submitted text `v` commits a
`PromptParts` whose `fullPrompt` is exactly `v` — the gateway's own
echo in `resp.fullPrompt` is discarded — and whose seven named fields
are exactly the gateway's response fields. -/
theorem claim2_preserve (t : Nat) (v : Str) (resp : PromptParts)
    (st : EngineState) (_hv : v ∈ st.inflight) :
    (applyReturnOk t v resp st).parts.fullPrompt = v ∧
    (applyReturnOk t v resp st).parts.scene = resp.scene ∧
    (applyReturnOk t v resp st).parts.background = resp.background ∧
    (applyReturnOk t v resp st).parts.imageType = resp.imageType ∧
    (applyReturnOk t v resp st).parts.style = resp.style ∧
    (applyReturnOk t v resp st).parts.texture = resp.texture ∧
    (applyReturnOk t v resp st).parts.lighting = resp.lighting ∧
    (applyReturnOk t v resp st).parts.details = resp.details := by
  have hp : (applyReturnOk t v resp st).parts = breakdownResult v resp := by
    simp only [applyReturnOk]
    rw [effectA_parts]
  rw [hp]
  simp [breakdownResult]

/-- C2 (witness): a concrete successful return against a state with
the call in flight. -/
theorem claim2_witness :
    (applyReturnOk 900 (str "A") respW cWState).parts.fullPrompt = str "A" ∧
    (applyReturnOk 900 (str "A") respW cWState).parts.scene = respW.scene :=
  ⟨(claim2_preserve 900 (str "A") respW cWState (by decide)).1,
    (claim2_preserve 900 (str "A") respW cWState (by decide)).2.1⟩

/-! ### Claim C7 -/

/-- C7: a failed re-analysis sets the error indication and changes
nothing else of the prompt state: the whole `PromptParts` — the seven
named fields and the full prompt the user typed — is exactly what it
was before the failure was processed. -/
theorem claim7_failure (v : Str) (st : EngineState) :
    (applyReturnErr v st).parts = st.parts ∧
    (applyReturnErr v st).parts.fullPrompt = st.parts.fullPrompt ∧
    (applyReturnErr v st).errorFlag = true ∧
    (applyReturnErr v st).calls = st.calls := by
  exact ⟨rfl, rfl, rfl, rfl⟩

/-! ### Claim C10 -/

/-- C10: when the debounce timer fires while the captured full-prompt
value trims to nothing, no gateway call is issued — the effect guard
and the early return of `reAnalyzePrompt` both stop it — and
`reAnalyzePrompt` itself is the identity on such input. -/
theorem claim10_blank (st : EngineState) (ft : Nat) (v : Str)
    (ht : st.timer = some (ft, v)) (htrim : trim v = []) :
    (fireTimer st).calls = st.calls ∧ (fireTimer st).inflight = st.inflight ∧
    reAnalyzeCall v st = st := by
  have hre : ∀ s : EngineState, reAnalyzeCall v s = s := by
    intro s
    simp [reAnalyzeCall, htrim]
  refine ⟨?_, ?_, hre st⟩ <;>
  · simp only [fireTimer, ht, effectB]
    split_ifs <;> simp [hre]

/-- C10 (witness): a pending timer capturing the whitespace-only
string fires without issuing a call. -/
theorem claim10_witness :
    (fireTimer wsTimerState).calls = wsTimerState.calls ∧
    (fireTimer wsTimerState).inflight = wsTimerState.inflight ∧
    reAnalyzeCall (str " ") wsTimerState = wsTimerState :=
  claim10_blank wsTimerState 500 (str " ") rfl (by decide)

/-! ### Claim C4 -/

/-- C4 (counterexample): with overlapping in-flight calls the claim
fails.  From the ready state the user edits the full prompt to `"A"`
(re-analysis of `"A"` is issued when the debounce fires), then to
`"C"` (re-analysis of `"C"` issued), then to `"D"`.  The late success
of the `"A"` call now commits `fullPrompt := "A"`, which cancels the
pending `"D"` timer and arms a fresh timer capturing `"A"`; when that
timer fires — with no user edit after the commit — a third gateway
call is issued.  So committing a re-analysis result CAN start another
debounce-triggered re-analysis call. -/
theorem claim4_counterexample :
    (runEvents ceTrace readyState).calls = [str "A", str "C"] ∧
    (runEvents ceTrace readyState).timer = some (1800, str "A") ∧
    (flushTimer (runEvents ceTrace readyState)).calls =
      [str "A", str "C", str "A"] := by
  decide

/-- C4 (amended): committing a successful re-analysis result while the
full-prompt text still equals the submitted text and no user edit is
unconsumed (the dirty flag is clear, as it always is at commit time
unless the user typed again while the call was in flight) issues no
call, arms no timer, and leaves the debounce machinery untouched; and
from any such state, any further events that contain no direct
full-prompt edit — timer expiries, named-field edits, other
completions — never issue a re-analysis call.  Only a genuine user
edit of the full-prompt field sets the dirty flag. -/
theorem claim4_no_retrigger (t : Nat) (v : Str) (resp : PromptParts)
    (st : EngineState) (hfp : st.parts.fullPrompt = v)
    (hf : st.flag = false) :
    (applyReturnOk t v resp st).calls = st.calls ∧
    (applyReturnOk t v resp st).timer = st.timer ∧
    (applyReturnOk t v resp st).debounced = st.debounced ∧
    (applyReturnOk t v resp st).flag = false ∧
    ∀ evs : List Event, (∀ e ∈ evs, e.isEditFull = false) →
      (flushTimer (runEvents evs (applyReturnOk t v resp st))).calls =
        st.calls := by
  have heq : applyReturnOk t v resp st =
      { st with parts := breakdownResult v resp,
                inflight := st.inflight.erase v } := by
    simp only [applyReturnOk]
    exact effectA_of_eq t hfp _
  refine ⟨by rw [heq], by rw [heq], by rw [heq], by rw [heq]; exact hf, ?_⟩
  intro evs he
  obtain ⟨hf2, hc2⟩ := runEvents_no_editFull evs (applyReturnOk t v resp st) he
    (by rw [heq]; exact hf)
  obtain ⟨_, hc3⟩ :=
    fireTimer_of_flag_false (runEvents evs (applyReturnOk t v resp st)) hf2
  rw [flushTimer, hc3, hc2, heq]

/-- C4 (witness): a concrete matching commit followed by a failure
event issues no further call. -/
theorem claim4_witness :
    (applyReturnOk 900 (str "A") respW cWState).calls = cWState.calls ∧
    (flushTimer (runEvents [Event.returnErr 950 (str "A")]
        (applyReturnOk 900 (str "A") respW cWState))).calls =
      cWState.calls :=
  ⟨(claim4_no_retrigger 900 (str "A") respW cWState rfl rfl).1,
    (claim4_no_retrigger 900 (str "A") respW cWState rfl rfl).2.2.2.2
      [Event.returnErr 950 (str "A")] (by decide)⟩

/-! ### Claim C3 -/

theorem advance_of_not_due (t : Nat) (st : EngineState)
    (hnd : ∀ ft w, st.timer = some (ft, w) → t < ft) :
    advance t st = st := by
  cases ht : st.timer with
  | none => simp [advance, ht]
  | some p =>
    obtain ⟨ft, w⟩ := p
    have hlt := hnd ft w ht
    simp [advance, ht, Nat.not_le.mpr hlt]

/-- One full-prompt edit at a moment when the pending timer, if any,
is not yet due: the raw value is committed, the dirty flag set, and
the timer rearmed exactly when the value changed. -/
theorem step_editFull_eq (st : EngineState) (t : Nat) (v : Str)
    (hnd : ∀ ft w, st.timer = some (ft, w) → t < ft) :
    ∃ T, step st (.editFull t v) =
      { st with parts := { st.parts with fullPrompt := v }, flag := true,
                timer := T } ∧
      (st.parts.fullPrompt = v → T = st.timer) ∧
      (st.parts.fullPrompt ≠ v → v ≠ [] → T = some (t + 500, v)) ∧
      (st.parts.fullPrompt ≠ v → v = [] → T = none) := by
  have hadv : advance t st = st := advance_of_not_due t st hnd
  refine ⟨if st.parts.fullPrompt = v then st.timer
          else if v = [] then none else some (t + 500, v), ?_, ?_, ?_, ?_⟩
  · simp only [step, hadv, applyEditFull, effectA]
    by_cases h1 : st.parts.fullPrompt = v
    · rw [if_pos h1, if_pos h1]
    · by_cases h2 : v = []
      · rw [if_neg h1, if_neg h1, if_pos h2, if_neg (by simp [h2])]
      · rw [if_neg h1, if_neg h1, if_neg h2, if_pos h2]
  · intro h1; rw [if_pos h1]
  · intro h1 h2; rw [if_neg h1, if_neg h2]
  · intro h1 h2; rw [if_neg h1, if_pos h2]

/-- The debounce timer fires in a state where the captured value is
non-empty, differs from the last debounced value, trims to something,
the dirty flag is set and the initial analysis is done: exactly one
gateway call with the captured value is issued. -/
theorem fireTimer_call (st : EngineState) (ft : Nat) (v : Str)
    (ht : st.timer = some (ft, v)) (hdeb : st.debounced ≠ v)
    (hv : v ≠ []) (hflag : st.flag = true) (hdone : st.initialDone = true)
    (htrim : trim v ≠ []) :
    (fireTimer st).calls = st.calls ++ [v] := by
  simp only [fireTimer, ht, effectB]
  rw [if_neg hdeb, if_pos ⟨hv, hflag, hdone⟩]
  simp [reAnalyzeCall, htrim]

/-- C3 (counterexample): three full-prompt edits within 500 ms of each
other where the last edit deletes all text: the debounce effect never
arms a timer for an empty value, so NO re-analysis call is issued at
all, not exactly one. -/
theorem claim3_counterexample :
    (flushTimer (runEvents
        [Event.editFull 0 (str "a"), Event.editFull 100 (str "ab"),
         Event.editFull 200 []] readyState)).calls = [] ∧
    readyState.initialDone = true := by
  decide

/-- C3 (amended): starting from a state with the initial analysis done
and no timer pending, three full-prompt edits each strictly less than
500 ms after the previous one — each changing the text, with the last
value non-empty, non-whitespace and different from the last debounced
value — lead (once the final timer expires) to exactly one re-analysis
gateway call, whose argument is the value committed by the last
edit. -/
theorem claim3_coalesce (st : EngineState) (t1 t2 t3 : Nat) (v1 v2 v3 : Str)
    (hdone : st.initialDone = true) (htimer : st.timer = none)
    (h12 : t1 ≤ t2) (h12b : t2 < t1 + 500)
    (h23 : t2 ≤ t3) (h23b : t3 < t2 + 500)
    (hd21 : v2 ≠ v1) (hd32 : v3 ≠ v2) (hv3 : v3 ≠ [])
    (htrim3 : trim v3 ≠ []) (hdeb : v3 ≠ st.debounced) :
    (flushTimer (runEvents
        [Event.editFull t1 v1, Event.editFull t2 v2, Event.editFull t3 v3]
        st)).calls = st.calls ++ [v3] := by
  obtain ⟨T1, hs1, hT1a, hT1b, hT1c⟩ := step_editFull_eq st t1 v1
    (fun ft w hw => absurd hw (by rw [htimer]; simp))
  set st1 : EngineState :=
    { st with parts := { st.parts with fullPrompt := v1 }, flag := true,
              timer := T1 } with hst1
  have hT1 : T1 = none ∨ T1 = some (t1 + 500, v1) := by
    by_cases h1 : st.parts.fullPrompt = v1
    · left; rw [hT1a h1, htimer]
    · by_cases h2 : v1 = []
      · left; exact hT1c h1 h2
      · right; exact hT1b h1 h2
  obtain ⟨T2, hs2, hT2a, hT2b, hT2c⟩ := step_editFull_eq st1 t2 v2
    (by
      intro ft w hw
      rcases hT1 with h | h
      · rw [hst1] at hw; simp [h] at hw
      · rw [hst1] at hw
        simp only [h] at hw
        have hft : ft = t1 + 500 := by
          have := (Option.some.injEq _ _).mp hw
          exact (Prod.mk.injEq _ _ _ _).mp this |>.1.symm
        omega)
  have hfull1 : st1.parts.fullPrompt = v1 := rfl
  have hne2 : st1.parts.fullPrompt ≠ v2 := by
    rw [hfull1]; exact fun h => hd21 h.symm
  set st2 : EngineState :=
    { st1 with parts := { st1.parts with fullPrompt := v2 }, flag := true,
               timer := T2 } with hst2
  have hT2 : T2 = none ∨ T2 = some (t2 + 500, v2) := by
    by_cases h2 : v2 = []
    · left; exact hT2c hne2 h2
    · right; exact hT2b hne2 h2
  obtain ⟨T3, hs3, hT3a, hT3b, hT3c⟩ := step_editFull_eq st2 t3 v3
    (by
      intro ft w hw
      rcases hT2 with h | h
      · rw [hst2] at hw; simp [h] at hw
      · rw [hst2] at hw
        simp only [h] at hw
        have hft : ft = t2 + 500 := by
          have := (Option.some.injEq _ _).mp hw
          exact (Prod.mk.injEq _ _ _ _).mp this |>.1.symm
        omega)
  have hne3 : st2.parts.fullPrompt ≠ v3 := by
    have : st2.parts.fullPrompt = v2 := rfl
    rw [this]; exact fun h => hd32 h.symm
  have hT3 : T3 = some (t3 + 500, v3) := hT3b hne3 hv3
  set st3 : EngineState :=
    { st2 with parts := { st2.parts with fullPrompt := v3 }, flag := true,
               timer := T3 } with hst3
  have hrun : runEvents
      [Event.editFull t1 v1, Event.editFull t2 v2, Event.editFull t3 v3] st
      = st3 := by
    simp only [runEvents, List.foldl]
    rw [hs1, hs2, hs3]
  rw [hrun, flushTimer]
  have hcall := fireTimer_call st3 (t3 + 500) v3
    (by rw [hst3]; simp [hT3])
    (by
      have : st3.debounced = st.debounced := rfl
      rw [this]; exact fun h => hdeb h.symm)
    hv3 rfl hdone htrim3
  rw [hcall]

/-- C3 (witness): three concrete rapid edits from the ready state
produce exactly the one call carrying the last value. -/
theorem claim3_witness :
    (flushTimer (runEvents
        [Event.editFull 0 (str "a"), Event.editFull 100 (str "ab"),
         Event.editFull 200 (str "abc")] readyState)).calls =
      readyState.calls ++ [str "abc"] :=
  claim3_coalesce readyState 0 100 200 (str "a") (str "ab") (str "abc")
    rfl rfl (by decide) (by decide) (by decide) (by decide)
    (by decide) (by decide) (by decide) (by decide) (by decide)

/-! ### Claim C8 -/

/-- The transcript entries contributed by one submission: the user
message and the model message — gateway response or fallback. -/
def turnMsgs (x : Str × Option Str) : List ChatMsg :=
  [⟨.user, x.1⟩, ⟨.model, x.2.getD fallback⟩]

theorem runChat_messages (subs : List (Str × Option Str)) (st : ChatState)
    (hp : st.pending = false) (h : ∀ x ∈ subs, trim x.1 ≠ []) :
    (runChat subs st).messages = st.messages ++ subs.flatMap turnMsgs ∧
    (runChat subs st).pending = false := by
  induction subs generalizing st with
  | nil => exact ⟨by simp [runChat], hp⟩
  | cons x xs ih =>
    have hx : trim x.1 ≠ [] := h x (by simp)
    have hsend : handleSend x.1 x.2 st =
        ⟨st.messages ++ turnMsgs x, false⟩ := by
      simp [handleSend, hx, hp, turnMsgs]
    have hrest := ih ⟨st.messages ++ turnMsgs x, false⟩ rfl
      (fun y hy => h y (by simp [hy]))
    have hrun : runChat (x :: xs) st =
        runChat xs ⟨st.messages ++ turnMsgs x, false⟩ := by
      simp only [runChat, List.foldl]
      rw [hsend]
    rw [hrun, hrest.1]
    refine ⟨?_, hrest.2⟩
    simp [List.append_assoc]

theorem length_bind_turnMsgs (subs : List (Str × Option Str)) :
    (subs.flatMap turnMsgs).length = 2 * subs.length := by
  induction subs with
  | nil => rfl
  | cons x xs ih =>
    simp only [List.flatMap_cons, List.length_append, List.length_cons, ih]
    simp [turnMsgs]
    ring

/-- C8: for N chat submissions with non-blank text, each awaited
before the next, the transcript is exactly the fixed greeting followed
by the user message and the model message (gateway response, or the
fixed fallback on failure) of each submission in order — 2N+1 messages
in total. -/
theorem claim8_transcript (subs : List (Str × Option Str))
    (h : ∀ x ∈ subs, trim x.1 ≠ []) :
    (runChat subs chatInit).messages = greeting :: subs.flatMap turnMsgs ∧
    (runChat subs chatInit).messages.length = 2 * subs.length + 1 := by
  obtain ⟨hm, _⟩ := runChat_messages subs chatInit rfl h
  refine ⟨by simpa [chatInit] using hm, ?_⟩
  rw [hm]
  simp only [chatInit, List.length_append, length_bind_turnMsgs,
    List.length_singleton]
  omega

/-- C8 (witness): two concrete submissions, one successful and one
failed, yield the five-message transcript greeting, user, model
response, user, fallback. -/
theorem claim8_witness :
    (runChat [(str "hi", some (str "hello there")), (str "next", none)]
        chatInit).messages =
      [greeting, ⟨.user, str "hi"⟩, ⟨.model, str "hello there"⟩,
       ⟨.user, str "next"⟩, ⟨.model, fallback⟩] ∧
    (runChat [(str "hi", some (str "hello there")), (str "next", none)]
        chatInit).messages.length = 2 * 2 + 1 := by
  have h := claim8_transcript
    [(str "hi", some (str "hello there")), (str "next", none)] (by decide)
  exact ⟨by rw [h.1]; rfl, h.2⟩

end CPE
